import Mathlib

/-!
# Verification of the PyCoder RLE codec (`src/rle.py`)

A shallow embedding of the run-length-encoding codec in `src/rle.py`.
Bytes are modelled as `Nat` (the source only produces and consumes values
in `0..255`; the embedding is parametric and never needs the bound).
Byte streams are `List Nat`; the file-handle reads/writes of the source
become list consumption/production, and Python exceptions become
`Except` errors.
-/

/-- The two RLE methods of `rle.py` (`class RLEMethod(Enum)`):
method A has tag byte `b'\x21'` (33), method B has tag byte `b'\x8a'` (138). -/
inductive RLEMethod
  | A
  | B
deriving DecidableEq

/-- The tag byte of a method (the `Enum` member's `value` in the source). -/
def RLEMethod.value : RLEMethod → Nat
  | .A => 33
  | .B => 138

/-- Errors `decode_rle` can raise. In the source, an unknown first byte makes
`RLEMethod(in_file.read(1))` raise `ValueError` (the spec's `UnknownFormat`),
and an incomplete trailing structure raises `ValueError`/`IndexError`
(the spec's `TruncatedInput`). -/
inductive DecodeErr
  | UnknownFormat
  | TruncatedInput
deriving DecidableEq

/-- Error `encode_rle` raises: the method-dispatch dict lookup raises
`KeyError` for a value outside the two enum members
(the spec's `UnsupportedMethod`). -/
inductive EncodeErr
  | UnsupportedMethod
deriving DecidableEq

/-- The loop of `_do_encode` after the initial `curr_byte = in_.read(1)`:
state is the current byte and its accumulated count; `w` is the
method-specific `write_fn`.  When a repeat raises the count to 256 the
source writes the run with count 255 and restarts the count at 1. -/
def do_encode_loop (w : Nat → Nat → List Nat) : Nat → Nat → List Nat → List Nat
  | curr, count, [] => w curr count
  | curr, count, next :: rest =>
    if next = curr then
      if count + 1 = 256 then
        w curr 255 ++ do_encode_loop w curr 1 rest
      else
        do_encode_loop w curr (count + 1) rest
    else
      w curr count ++ do_encode_loop w next 1 rest

/-- `_do_encode`: on empty input the final `if curr_byte:` guard writes
nothing; otherwise the loop starts with the first byte and count 1. -/
def do_encode (w : Nat → Nat → List Nat) : List Nat → List Nat
  | [] => []
  | b :: rest => do_encode_loop w b 1 rest

/-- The `write_fn` of `_encode_mA`: count byte, then the literal byte. -/
def write_mA (curr count : Nat) : List Nat := [count, curr]

/-- The `write_fn` of `_encode_mB`: the byte once; only when the count
exceeds 1, the byte again followed by the count byte. -/
def write_mB (curr count : Nat) : List Nat :=
  if count > 1 then [curr, curr, count] else [curr]

/-- Method dispatch of `encode_rle` (`encode_fn = {...}[method]`). -/
def encode_payload : RLEMethod → List Nat → List Nat
  | .A => do_encode write_mA
  | .B => do_encode write_mB

/-- `int.to_bytes(4, 'big')`: the four big-endian base-256 digits. -/
def toBytesBE4 (n : Nat) : List Nat :=
  [n / 2 ^ 24 % 256, n / 2 ^ 16 % 256, n / 2 ^ 8 % 256, n % 256]

/-- The default value of the `ts` parameter of `encode_rle`.  Python
evaluates the default expression `int(time.time()).to_bytes(4, 'big')`
once, when the module is defined; `moduleLoadTime` is the wall-clock
second of that moment.  Every call that omits `ts` (as `pycoder.py`
does) reuses these same four bytes. -/
def default_ts (moduleLoadTime : Nat) : List Nat := toBytesBE4 moduleLoadTime

/-- `encode_rle` body after dispatch succeeded: write the method tag,
the timestamp bytes `ts`, then the encoded payload. -/
def encode_rle (m : RLEMethod) (data ts : List Nat) : List Nat :=
  m.value :: (ts ++ encode_payload m data)

/-- An `encode_rle` call that leaves `ts` at its default, as the program
does: the stamp is the module-load-time default, whatever the wall clock
says at call time. -/
def encode_rle_default (moduleLoadTime : Nat) (m : RLEMethod) (data : List Nat) : List Nat :=
  encode_rle m data (default_ts moduleLoadTime)

/-- Recover an `RLEMethod` from a tag byte (`RLEMethod(bytes)` /
the dispatch-dict key): only 33 and 138 are members. -/
def methodOfTag (t : Nat) : Option RLEMethod :=
  if t = 33 then some .A else if t = 138 then some .B else none

/-- `encode_rle` including its dispatch failure: a method value outside the
two enum members makes the dict lookup raise before any file is opened,
so nothing is written. -/
def encode_rle_checked (tag : Nat) (data ts : List Nat) : Except EncodeErr (List Nat) :=
  match methodOfTag tag with
  | some m => .ok (encode_rle m data ts)
  | none => .error .UnsupportedMethod

/-- `_decode_mA`: read two bytes at a time, first the count then the
literal; a dangling single byte fails the two-element unpacking
(`ValueError`), modelled as `TruncatedInput`. -/
def decode_mA : List Nat → Except DecodeErr (List Nat)
  | [] => .ok []
  | [_] => .error .TruncatedInput
  | k :: b :: rest => (decode_mA rest).map (fun t => List.replicate k b ++ t)

/-- `_decode_mB`: read `b1`, `b2`; stop when `b1` is empty; when
`b1 == b2` read a third byte as the count (`IndexError` when absent,
modelled as `TruncatedInput`) and emit `count` copies; otherwise emit
`b1` once and push `b2` back (`in_file.seek(-1, SEEK_CUR)`), modelled
by recursing on `b2 :: rest`. -/
def decode_mB : List Nat → Except DecodeErr (List Nat)
  | [] => .ok []
  | [b1] => .ok [b1]
  | b1 :: b2 :: rest =>
    if b1 = b2 then
      match rest with
      | [] => .error .TruncatedInput
      | k :: rest2 => (decode_mB rest2).map (fun t => List.replicate k b1 ++ t)
    else
      (decode_mB (b2 :: rest)).map (fun t => b1 :: t)
termination_by l => l.length
decreasing_by
  · simp
    omega
  · simp

/-- Method dispatch of `decode_rle` (`decode_fn = {...}[method]`). -/
def decode_payload : RLEMethod → List Nat → Except DecodeErr (List Nat)
  | .A => decode_mA
  | .B => decode_mB

/-- `decode_rle`: read one byte and look it up as a method tag (failure is
`UnknownFormat`, raised before the output file is opened, so nothing is
written); read up to four timestamp bytes without validation; decode the
rest as the payload.  The source returns `[method, ts]` and writes the
decompressed bytes to the output file; the model returns all three. -/
def decode_rle : List Nat → Except DecodeErr (RLEMethod × List Nat × List Nat)
  | [] => .error .UnknownFormat
  | t :: rest =>
    match methodOfTag t with
    | none => .error .UnknownFormat
    | some m => (decode_payload m (rest.drop 4)).map (fun out => (m, rest.take 4, out))

deriving instance DecidableEq for Except

/-! ## Equation lemmas for `decode_mB` (defined by well-founded recursion) -/

theorem decode_mB_nil : decode_mB [] = .ok [] := by
  rw [decode_mB.eq_def]

theorem decode_mB_single (b : Nat) : decode_mB [b] = .ok [b] := by
  rw [decode_mB.eq_def]

theorem decode_mB_pair_end (c : Nat) : decode_mB [c, c] = .error .TruncatedInput := by
  rw [decode_mB.eq_def]
  simp

theorem decode_mB_run (c k : Nat) (s : List Nat) :
    decode_mB (c :: c :: k :: s) = (decode_mB s).map (fun t => List.replicate k c ++ t) := by
  rw [decode_mB.eq_def]
  simp

theorem decode_mB_lit (a b : Nat) (s : List Nat) (h : a ≠ b) :
    decode_mB (a :: b :: s) = (decode_mB (b :: s)).map (fun t => a :: t) := by
  rw [decode_mB.eq_def]
  simp [h]

/-! ## Encoder structure lemmas -/

/-- Consuming repeats of the current byte up to the 256 overflow point:
the source writes a run of count 255 and restarts the count at 1. -/
theorem do_encode_loop_overflow (w : Nat → Nat → List Nat) (c : Nat) :
    ∀ n k rest, 1 ≤ n → k + n = 256 →
      do_encode_loop w c k (List.replicate n c ++ rest) =
        w c 255 ++ do_encode_loop w c 1 rest := by
  intro n
  induction n with
  | zero => omega
  | succ m ih =>
    intro k rest _ h2
    rw [List.replicate_succ]
    show do_encode_loop w c k (c :: (List.replicate m c ++ rest)) = _
    rw [do_encode_loop]
    simp only [if_pos rfl]
    rcases Nat.eq_zero_or_pos m with hm | hm
    · subst hm
      have : k + 1 = 256 := by omega
      simp [this]
    · have : ¬ (k + 1 = 256) := by omega
      simp only [this, if_false]
      exact ih (k + 1) rest hm (by omega)

/-- A run of `255 * q + 1` identical bytes, entered with count 1, is
written as `q` chunks of count 255 followed by one chunk of count 1. -/
theorem do_encode_loop_rep (w : Nat → Nat → List Nat) (v : Nat) :
    ∀ q, do_encode_loop w v 1 (List.replicate (255 * q) v) =
      (List.replicate q (w v 255)).flatten ++ w v 1 := by
  intro q
  induction q with
  | zero => simp [do_encode_loop]
  | succ p ih =>
    have hsplit : List.replicate (255 * (p + 1)) v =
        List.replicate 255 v ++ List.replicate (255 * p) v := by
      rw [← List.replicate_add]
      ring_nf
    rw [hsplit, do_encode_loop_overflow w v 255 1 (List.replicate (255 * p) v) (by omega) (by omega),
      ih, List.replicate_succ, List.flatten_cons, List.append_assoc]

/-- Encoding 256 identical bytes emits exactly two runs: one of count 255
followed by one of count 1, under either writing policy. -/
theorem do_encode_256 (w : Nat → Nat → List Nat) (v : Nat) :
    do_encode w (List.replicate 256 v) = w v 255 ++ w v 1 := by
  have h : List.replicate 256 v = v :: List.replicate (255 * 1) v := by
    rw [show (256 : Nat) = 255 * 1 + 1 by norm_num, List.replicate_succ]
  rw [h]
  show do_encode_loop w v 1 (List.replicate (255 * 1) v) = _
  rw [do_encode_loop_rep]
  simp

/-- The method-B encoder's output from any loop state starts with the
current byte. -/
theorem do_encode_loop_mB_head :
    ∀ rest curr count, ∃ t, do_encode_loop write_mB curr count rest = curr :: t := by
  intro rest
  induction rest with
  | nil =>
    intro curr count
    by_cases h : count > 1 <;> simp [do_encode_loop, write_mB, h]
  | cons next rest ih =>
    intro curr count
    rw [do_encode_loop]
    by_cases hn : next = curr
    · by_cases h256 : count + 1 = 256
      · simp only [hn, if_pos rfl, h256, if_pos rfl]
        exact ⟨curr :: 255 :: do_encode_loop write_mB curr 1 rest, by simp [write_mB]⟩
      · simp only [hn, if_pos rfl, h256, if_false]
        exact ih curr (count + 1)
    · simp only [hn, if_false]
      by_cases h : count > 1 <;> simp [write_mB, h]

/-! ## Round-trip lemmas -/

theorem decode_mA_cons (k b : Nat) (s : List Nat) :
    decode_mA (k :: b :: s) = (decode_mA s).map (fun t => List.replicate k b ++ t) := rfl

/-- Decoding a method-A encoder run from any loop state with an in-range
count recovers the pending run followed by the remaining input. -/
theorem decode_loop_mA :
    ∀ rest curr count, count ≤ 255 →
      decode_mA (do_encode_loop write_mA curr count rest) =
        .ok (List.replicate count curr ++ rest) := by
  intro rest
  induction rest with
  | nil =>
    intro curr count _
    simp [do_encode_loop, write_mA, decode_mA, Except.map]
  | cons next rest ih =>
    intro curr count hle
    rw [do_encode_loop]
    by_cases hn : next = curr
    · subst hn
      by_cases h256 : count + 1 = 256
      · have hc : count = 255 := by omega
        subst hc
        rw [if_pos rfl, if_pos h256]
        show decode_mA (255 :: next :: do_encode_loop write_mA next 1 rest) = _
        rw [decode_mA_cons, ih next 1 (by omega)]
        show Except.map (fun t => List.replicate 255 next ++ t)
            (Except.ok (List.replicate 1 next ++ rest)) =
          Except.ok (List.replicate 255 next ++ next :: rest)
        rw [List.replicate_one, List.singleton_append]
        rfl
      · rw [if_pos rfl, if_neg h256, ih next (count + 1) (by omega)]
        simp [List.replicate_succ', List.append_assoc]
    · rw [if_neg hn]
      show decode_mA (count :: curr :: do_encode_loop write_mA next 1 rest) = _
      rw [decode_mA_cons, ih next 1 (by omega)]
      simp [Except.map]

/-- Decoding a method-B encoder run from any loop state with count in
`[1, 255]` recovers the pending run followed by the remaining input. -/
theorem decode_loop_mB :
    ∀ rest curr count, 1 ≤ count → count ≤ 255 →
      decode_mB (do_encode_loop write_mB curr count rest) =
        .ok (List.replicate count curr ++ rest) := by
  intro rest
  induction rest with
  | nil =>
    intro curr count h1 _
    by_cases hc : count > 1
    · show decode_mB (write_mB curr count) = _
      rw [write_mB, if_pos hc, decode_mB_run curr count [], decode_mB_nil]
      rfl
    · have hc1 : count = 1 := by omega
      subst hc1
      show decode_mB [curr] = _
      rw [decode_mB_single]
      rfl
  | cons next rest ih =>
    intro curr count h1 hle
    rw [do_encode_loop]
    by_cases hn : next = curr
    · subst hn
      by_cases h256 : count + 1 = 256
      · have hc : count = 255 := by omega
        subst hc
        rw [if_pos rfl, if_pos h256]
        show decode_mB (next :: next :: 255 :: do_encode_loop write_mB next 1 rest) = _
        rw [decode_mB_run, ih next 1 (by omega) (by omega), List.replicate_one,
          List.singleton_append]
        rfl
      · rw [if_pos rfl, if_neg h256, ih next (count + 1) (by omega) (by omega),
          List.replicate_succ', List.append_assoc, List.singleton_append]
    · rw [if_neg hn]
      obtain ⟨t, ht⟩ := do_encode_loop_mB_head rest next 1
      by_cases hc : count > 1
      · rw [write_mB, if_pos hc]
        show decode_mB (curr :: curr :: count :: do_encode_loop write_mB next 1 rest) = _
        rw [decode_mB_run, ih next 1 (by omega) (by omega), List.replicate_one,
          List.singleton_append]
        rfl
      · have hc1 : count = 1 := by omega
        subst hc1
        show decode_mB (curr :: do_encode_loop write_mB next 1 rest) = _
        rw [ht]
        rw [decode_mB_lit curr next t (Ne.symm hn), ← ht, ih next 1 (by omega) (by omega)]
        rfl

/-- `_decode_mA` inverts `_encode_mA` on every payload. -/
theorem decode_encode_mA (d : List Nat) : decode_mA (do_encode write_mA d) = .ok d := by
  cases d with
  | nil => rfl
  | cons b rest =>
    show decode_mA (do_encode_loop write_mA b 1 rest) = _
    rw [decode_loop_mA rest b 1 (by omega)]
    rfl

/-- `_decode_mB` inverts `_encode_mB` on every payload. -/
theorem decode_encode_mB (d : List Nat) : decode_mB (do_encode write_mB d) = .ok d := by
  cases d with
  | nil => exact decode_mB_nil
  | cons b rest =>
    show decode_mB (do_encode_loop write_mB b 1 rest) = _
    rw [decode_loop_mB rest b 1 (by omega) (by omega)]
    rfl

theorem methodOfTag_value (m : RLEMethod) : methodOfTag m.value = some m := by
  cases m <;> rfl

theorem decode_payload_encode_payload (m : RLEMethod) (d : List Nat) :
    decode_payload m (encode_payload m d) = .ok d := by
  cases m
  · exact decode_encode_mA d
  · exact decode_encode_mB d

theorem decode_payload_nil (m : RLEMethod) : decode_payload m [] = .ok [] := by
  cases m
  · rfl
  · exact decode_mB_nil

theorem decode_rle_valid_tag (m : RLEMethod) (rest : List Nat) :
    decode_rle (m.value :: rest) =
      (decode_payload m (rest.drop 4)).map (fun out => (m, rest.take 4, out)) := by
  cases m <;> rfl

/-- Full-pipeline round trip: decoding any encoded file recovers the method,
the header timestamp bytes, and the original data. -/
theorem decode_rle_encode_rle (m : RLEMethod) (data ts : List Nat) (h : ts.length = 4) :
    decode_rle (encode_rle m data ts) = .ok (m, ts, data) := by
  show decode_rle (m.value :: (ts ++ encode_payload m data)) = _
  rw [decode_rle_valid_tag,
    show (ts ++ encode_payload m data).drop 4 = encode_payload m data by
      rw [← h]; exact List.drop_left ts _,
    show (ts ++ encode_payload m data).take 4 = ts by
      rw [← h]; exact List.take_left ts _,
    decode_payload_encode_payload]
  rfl

theorem decode_rle_cons (t : Nat) (rest : List Nat) :
    decode_rle (t :: rest) =
      match methodOfTag t with
      | none => .error .UnknownFormat
      | some m => (decode_payload m (rest.drop 4)).map (fun out => (m, rest.take 4, out)) := rfl

theorem decode_payload_mA (p : List Nat) : decode_payload .A p = decode_mA p := rfl

theorem decode_payload_mB (p : List Nat) : decode_payload .B p = decode_mB p := rfl

theorem ts_drop (ts p : List Nat) (h : ts.length = 4) : (ts ++ p).drop 4 = p := by
  rw [← h]
  exact List.drop_left ts p

theorem ts_take (ts p : List Nat) (h : ts.length = 4) : (ts ++ p).take 4 = ts := by
  rw [← h]
  exact List.take_left ts p

/-- A method-A payload of odd length leaves a dangling byte: the two-byte
read cannot be unpacked and decoding fails. -/
theorem decode_mA_odd :
    ∀ p : List Nat, p.length % 2 = 1 → decode_mA p = .error .TruncatedInput := by
  intro p
  induction p using decode_mA.induct with
  | case1 => intro h; simp at h
  | case2 b => intro _; rfl
  | case3 k b rest ih =>
    intro h
    rw [decode_mA, ih (by simp at h ⊢; omega)]
    rfl

/-! ## Claims -/

/-- C1: Round trip — for every byte sequence `data` and both methods,
decoding the output of encoding yields exactly the original bytes as the
decompressed sequence (together with the method and header timestamp). -/
theorem C1_round_trip (m : RLEMethod) (data ts : List Nat) (h : ts.length = 4) :
    decode_rle (encode_rle m data ts) = .ok (m, ts, data) :=
  decode_rle_encode_rle m data ts h

/-- C1 witness: the round trip at a concrete method-B input. -/
theorem C1_round_trip_witness :
    ([0, 0, 0, 0] : List Nat).length = 4 ∧
      decode_rle (encode_rle .B [7, 7, 7, 5] [0, 0, 0, 0]) =
        .ok (.B, [0, 0, 0, 0], [7, 7, 7, 5]) :=
  ⟨by decide, C1_round_trip .B [7, 7, 7, 5] [0, 0, 0, 0] (by decide)⟩

/-- C2 counterexample: encoding 256 identical bytes under method B — a run
of two or more repeats whose splitting into chunks of at most 255 leaves a
final chunk of length exactly 1 — writes that final chunk as a single
undoubled literal byte, not in doubled-byte form followed by a count byte
of 1 as the claim states. -/
theorem C2_counterexample :
    do_encode write_mB (List.replicate 256 0) = [0, 0, 255, 0] ∧
      do_encode write_mB (List.replicate 256 0) ≠ [0, 0, 255, 0, 0, 1] := by
  have h : do_encode write_mB (List.replicate 256 0) = [0, 0, 255, 0] :=
    do_encode_256 write_mB 0
  exact ⟨h, by rw [h]; decide⟩

/-- C2 amended: for any run of `255 * q + 1` identical bytes (every run
whose splitting into chunks of at most 255 leaves a final chunk of length
exactly 1), the method-B encoder writes `q` doubled-byte chunks of count
255 followed by the final chunk as one undoubled literal byte, with no
count byte after it. -/
theorem C2_final_chunk_of_one_is_literal (v q : Nat) :
    do_encode write_mB (List.replicate (255 * q + 1) v) =
      (List.replicate q [v, v, 255]).flatten ++ [v] := by
  rw [List.replicate_succ]
  show do_encode_loop write_mB v 1 (List.replicate (255 * q) v) = _
  rw [do_encode_loop_rep write_mB v q]
  rfl

/-- C3 (code defect): the 4 bytes at offsets 1..4 written by an
`encode_rle` call that leaves `ts` at its default — as every call in this
program does — are always the big-endian encoding of the module-load
instant, for every call, every method and every input.  Two encode calls
made at different times in the same process therefore stamp the same
value: the timestamp is fixed once when the module is defined, not
captured at encode time as the claim states. -/
theorem C3_timestamp_is_module_load_time (moduleLoadTime : Nat) (m : RLEMethod)
    (data : List Nat) :
    ((encode_rle_default moduleLoadTime m data).drop 1).take 4 =
      toBytesBE4 moduleLoadTime := by
  show ((m.value :: (toBytesBE4 moduleLoadTime ++ encode_payload m data)).drop 1).take 4 = _
  rw [List.drop_one, List.tail_cons,
    show (4 : Nat) = (toBytesBE4 moduleLoadTime).length from rfl]
  exact List.take_left _ _

/-- C4: encoding 256 consecutive occurrences of any byte value emits two
runs — one of count 255 followed by one of count 1, not a single run —
under both methods, and decoding each output reconstructs exactly 256
copies of the byte. -/
theorem C4_overflow_splits_256 (v : Nat) :
    do_encode write_mA (List.replicate 256 v) = [255, v] ++ [1, v] ∧
      do_encode write_mB (List.replicate 256 v) = [v, v, 255] ++ [v] ∧
      decode_mA ([255, v] ++ [1, v]) = .ok (List.replicate 256 v) ∧
      decode_mB ([v, v, 255] ++ [v]) = .ok (List.replicate 256 v) := by
  have hA : do_encode write_mA (List.replicate 256 v) = [255, v] ++ [1, v] :=
    do_encode_256 write_mA v
  have hB : do_encode write_mB (List.replicate 256 v) = [v, v, 255] ++ [v] :=
    do_encode_256 write_mB v
  refine ⟨hA, hB, ?_, ?_⟩
  · rw [← hA]
    exact decode_encode_mA _
  · rw [← hB]
    exact decode_encode_mB _

/-- C5: decode fails with `TruncatedInput`, producing no result, on every
incomplete trailing structure: for method A whenever the payload has odd
length (a dangling count byte with no literal), and for method B when the
input ends immediately after a doubled byte pair with no count byte left
(stated both at the decoder-state level and through the full `decode_rle`
entry point). -/
theorem C5_truncated_input (ts : List Nat) (h : ts.length = 4) :
    (∀ p, p.length % 2 = 1 → decode_rle (33 :: (ts ++ p)) = .error .TruncatedInput) ∧
      (∀ c, decode_mB [c, c] = .error .TruncatedInput) ∧
      (∀ c, decode_rle (138 :: (ts ++ [c, c])) = .error .TruncatedInput) := by
  refine ⟨?_, fun c => decode_mB_pair_end c, ?_⟩
  · intro p hp
    show decode_rle (RLEMethod.A.value :: (ts ++ p)) = _
    rw [decode_rle_valid_tag, ts_drop ts p h, decode_payload_mA, decode_mA_odd p hp]
    rfl
  · intro c
    show decode_rle (RLEMethod.B.value :: (ts ++ [c, c])) = _
    rw [decode_rle_valid_tag, ts_drop ts [c, c] h, decode_payload_mB, decode_mB_pair_end]
    rfl

/-- C5 witness: truncated method-A and method-B inputs at concrete bytes. -/
theorem C5_truncated_input_witness :
    ([0, 0, 0, 0] : List Nat).length = 4 ∧
      ([9] : List Nat).length % 2 = 1 ∧
      decode_rle [33, 0, 0, 0, 0, 9] = .error .TruncatedInput ∧
      decode_rle [138, 0, 0, 0, 0, 5, 5] = .error .TruncatedInput :=
  ⟨by decide, by decide,
    (C5_truncated_input [0, 0, 0, 0] (by decide)).1 [9] (by decide),
    (C5_truncated_input [0, 0, 0, 0] (by decide)).2.2 5⟩

/-- C6: any input whose first byte is not one of the two defined method
tags (33 and 138) is rejected with `UnknownFormat`; the error is raised
before the output file is opened, so nothing is written. -/
theorem C6_unknown_format (t : Nat) (rest : List Nat) (h1 : t ≠ 33) (h2 : t ≠ 138) :
    decode_rle (t :: rest) = .error .UnknownFormat := by
  have hm : methodOfTag t = none := by
    rw [methodOfTag, if_neg h1, if_neg h2]
  rw [decode_rle_cons, hm]

/-- C6 witness: a zero tag byte is rejected. -/
theorem C6_unknown_format_witness :
    (0 : Nat) ≠ 33 ∧ (0 : Nat) ≠ 138 ∧
      decode_rle [0, 0, 0, 0, 0] = .error .UnknownFormat :=
  ⟨by decide, by decide, C6_unknown_format 0 [0, 0, 0, 0] (by decide) (by decide)⟩

/-- C7: requesting encode with any method value outside the two defined
variants fails with `UnsupportedMethod`; the dispatch failure happens
before any file is opened, so no (partial) output is produced. -/
theorem C7_unsupported_method (tag : Nat) (data ts : List Nat)
    (h1 : tag ≠ 33) (h2 : tag ≠ 138) :
    encode_rle_checked tag data ts = .error .UnsupportedMethod := by
  have hm : methodOfTag tag = none := by
    rw [methodOfTag, if_neg h1, if_neg h2]
  rw [encode_rle_checked, hm]

/-- C7 witness: tag 7 is not a method. -/
theorem C7_unsupported_method_witness :
    (7 : Nat) ≠ 33 ∧ (7 : Nat) ≠ 138 ∧
      encode_rle_checked 7 [1, 2, 3] [0, 0, 0, 0] = .error .UnsupportedMethod :=
  ⟨by decide, by decide,
    C7_unsupported_method 7 [1, 2, 3] [0, 0, 0, 0] (by decide) (by decide)⟩

/-- C8: encoding the empty byte sequence under either method produces
exactly the 5-byte header (method tag followed by the timestamp bytes)
with an empty payload, and decoding that output succeeds with the empty
decompressed sequence. -/
theorem C8_empty_input (m : RLEMethod) (ts : List Nat) (h : ts.length = 4) :
    encode_rle m [] ts = m.value :: ts ∧
      (encode_rle m [] ts).length = 5 ∧
      decode_rle (encode_rle m [] ts) = .ok (m, ts, []) := by
  have hp : encode_payload m [] = [] := by cases m <;> rfl
  have he : encode_rle m [] ts = m.value :: ts := by
    rw [encode_rle, hp, List.append_nil]
  refine ⟨he, ?_, ?_⟩
  · rw [he]
    simp [h]
  · rw [he, decode_rle_valid_tag,
      show ts.drop 4 = [] from by rw [← h]; exact List.drop_length ts,
      show ts.take 4 = ts from by rw [← h]; exact List.take_length ts,
      decode_payload_nil]
    rfl

/-- C8 witness: the empty input under method A with concrete timestamp. -/
theorem C8_empty_input_witness :
    ([1, 2, 3, 4] : List Nat).length = 4 ∧
      (encode_rle .A [] [1, 2, 3, 4] = RLEMethod.A.value :: [1, 2, 3, 4] ∧
        (encode_rle .A [] [1, 2, 3, 4]).length = 5 ∧
        decode_rle (encode_rle .A [] [1, 2, 3, 4]) = .ok (.A, [1, 2, 3, 4], [])) :=
  ⟨by decide, C8_empty_input .A [1, 2, 3, 4] (by decide)⟩

/-- C9: the timestamp bytes never affect decoding — two inputs identical
except in the 4 bytes at offsets 1..4 decode to the same method and the
same decompressed byte sequence (and fail identically when malformed). -/
theorem C9_timestamp_noninterference (t : Nat) (ts1 ts2 p : List Nat)
    (h1 : ts1.length = 4) (h2 : ts2.length = 4) :
    (decode_rle (t :: (ts1 ++ p))).map (fun r => (r.1, r.2.2)) =
      (decode_rle (t :: (ts2 ++ p))).map (fun r => (r.1, r.2.2)) := by
  cases hm : methodOfTag t with
  | none => rw [decode_rle_cons, decode_rle_cons, hm]
  | some m =>
    rw [decode_rle_cons, decode_rle_cons, hm]
    show ((decode_payload m ((ts1 ++ p).drop 4)).map
          (fun out => (m, (ts1 ++ p).take 4, out))).map (fun r => (r.1, r.2.2)) =
      ((decode_payload m ((ts2 ++ p).drop 4)).map
          (fun out => (m, (ts2 ++ p).take 4, out))).map (fun r => (r.1, r.2.2))
    rw [ts_drop ts1 p h1, ts_drop ts2 p h2]
    cases hp : decode_payload m p with
    | ok out => rfl
    | error e => rfl

/-- C9 witness: two well-formed method-A files differing only in the
timestamp bytes decode to the same method and bytes. -/
theorem C9_timestamp_noninterference_witness :
    ([0, 0, 0, 0] : List Nat).length = 4 ∧
      ([9, 9, 9, 9] : List Nat).length = 4 ∧
      (decode_rle (33 :: ([0, 0, 0, 0] ++ [2, 7]))).map (fun r => (r.1, r.2.2)) =
        (decode_rle (33 :: ([9, 9, 9, 9] ++ [2, 7]))).map (fun r => (r.1, r.2.2)) :=
  ⟨by decide, by decide,
    C9_timestamp_noninterference 33 [0, 0, 0, 0] [9, 9, 9, 9] [2, 7] (by decide) (by decide)⟩

/-- C10: an input that begins with a valid method tag but is shorter than
the 5-byte header is accepted, not rejected: decode succeeds with the
truncated (possibly empty) timestamp field and an empty decompressed
sequence. -/
theorem C10_short_header_accepted (t : Nat) (m : RLEMethod) (rest : List Nat)
    (hm : methodOfTag t = some m) (hlen : rest.length ≤ 3) :
    decode_rle (t :: rest) = .ok (m, rest, []) := by
  rw [decode_rle_cons, hm]
  show (decode_payload m (rest.drop 4)).map (fun out => (m, rest.take 4, out)) = _
  rw [show rest.drop 4 = [] from List.drop_eq_nil_of_le (by omega),
    show rest.take 4 = rest from List.take_of_length_le (by omega),
    decode_payload_nil]
  rfl

/-- C10 witness: the 1-byte input holding only the method-A tag decodes to
an empty timestamp and empty output. -/
theorem C10_short_header_accepted_witness :
    methodOfTag 33 = some .A ∧ ([] : List Nat).length ≤ 3 ∧
      decode_rle [33] = .ok (.A, [], []) :=
  ⟨by decide, by decide, C10_short_header_accepted 33 .A [] (by decide) (by decide)⟩
